import Mathlib

/- Shallow embedding of `src/main.py` (the pizzagami analyser).

   `Pizza = frozenset[Ingredient]` becomes `Finset Ingredient`.  Python dicts
   keyed by store or by `(store, pizza)` become association lists and
   functions.  Frozenset iteration order is unspecified in Python; every loop
   of the program that iterates a frozenset is order-insensitive, and the
   embedding fixes the sorted order `iterIngr`.  Python code that can raise
   (`max()` on an empty sequence) returns `Except`. -/

abbrev Store := String
abbrev Name := String
abbrev Ingredient := String
abbrev Pizza := Finset Ingredient

/-- Iteration over a frozenset, in (arbitrarily fixed) sorted order. -/
def iterIngr (p : Pizza) : List Ingredient := p.sort (· ≤ ·)

/-- State of class `Input`: `result` maps each store to its list of pizzas
(one entry per menu line, duplicates preserved), `names` maps a
`(store, pizza)` pair to the list of names that identity was listed under at
that store. -/
structure Input where
  result : List (Store × List Pizza)
  names : Store → Pizza → List Name

/-- `Input.__init__`: build `result` and `names` from the parsed menu lines,
one `(store, lines)` entry per file, each line being `(name, ingredient set)`.
Store keys are distinct in the program (they are file names of one directory);
theorems that depend on that carry a `Nodup` hypothesis. -/
def Input.ofLines (stores : List (Store × List (Name × Pizza))) : Input where
  result := stores.map (fun e => (e.1, e.2.map Prod.snd))
  names := fun s p =>
    stores.flatMap (fun e =>
      if e.1 = s then (e.2.filter (fun l => l.2 = p)).map Prod.fst else [])

/-- `Input.iter_pizzas`: every `(store, pizza)` occurrence, duplicates kept. -/
def Input.iter_pizzas (inp : Input) : List (Store × Pizza) :=
  inp.result.flatMap (fun e => e.2.map (fun p => (e.1, p)))

/-- `all_pizzas`: the set of distinct pizza identities of the catalog. -/
def all_pizzas (inp : Input) : Finset Pizza :=
  (inp.iter_pizzas.map Prod.snd).toFinset

/-- `all_ingredients`: every ingredient of every listed pizza. -/
def all_ingredients (inp : Input) : Finset Ingredient :=
  inp.iter_pizzas.foldl (fun acc sp => acc ∪ sp.2) ∅

/-- State of the `IngredientsAtOneStore` loop: the dict `ingr_seen_once`
(as a partial map) and the set `ingr_seen_more`. -/
structure ExclState where
  seen_once : Ingredient → Option Store
  seen_more : Ingredient → Bool

/-- Initial state of the `IngredientsAtOneStore` loop. -/
def exclInit : ExclState := ⟨fun _ => none, fun _ => false⟩

/-- One iteration of the `IngredientsAtOneStore.__init__` loop body on the
occurrence `e = (store, ingr)`. -/
def exclStep (st : ExclState) (e : Store × Ingredient) : ExclState :=
  if st.seen_more e.2 then st
  else
    match st.seen_once e.2 with
    | some s0 =>
      if s0 ≠ e.1 then
        { seen_once := fun i => if i = e.2 then none else st.seen_once i
          seen_more := fun i => if i = e.2 then true else st.seen_more i }
      else
        { st with seen_once := fun i => if i = e.2 then some e.1 else st.seen_once i }
    | none =>
      { st with seen_once := fun i => if i = e.2 then some e.1 else st.seen_once i }

/-- Stream of `(store, ingredient)` occurrences produced by the doubly nested
loop `for store, pizza in inp.iter_pizzas(): for ingr in pizza:`. -/
def ingrStream (inp : Input) : List (Store × Ingredient) :=
  inp.iter_pizzas.flatMap (fun sp => (iterIngr sp.2).map (fun i => (sp.1, i)))

/-- Final state of the `IngredientsAtOneStore.__init__` loop. -/
def IngredientsAtOneStore.final (inp : Input) : ExclState :=
  (ingrStream inp).foldl exclStep exclInit

/-- Membership of `ingr` in `IngredientsAtOneStore.result[store]`: the result
dict assigns `ingr` to the single store recorded in `ingr_seen_once`. -/
def IngredientsAtOneStore.result (inp : Input) (store : Store) (ingr : Ingredient) : Bool :=
  (IngredientsAtOneStore.final inp).seen_once ingr == some store

/-- `IngredientCount.counter`: the loop adds 1 to `counter[x]` at every
`(store, pizza)` occurrence of `iter_pizzas` whose pizza contains `x`. -/
def IngredientCount.counter (inp : Input) (x : Ingredient) : Nat :=
  (inp.iter_pizzas.map (fun sp => if x ∈ sp.2 then 1 else 0)).sum

/-- `IngredientCount.counter_with_duplicates`: the loop adds
`len(inp.names[(store, pizza)])` to the counter of `x` at every
`(store, pizza)` occurrence of `iter_pizzas` whose pizza contains `x`. -/
def IngredientCount.counter_with_duplicates (inp : Input) (x : Ingredient) : Nat :=
  (inp.iter_pizzas.map
    (fun sp => if x ∈ sp.2 then (inp.names sp.1 sp.2).length else 0)).sum

/-- `Pizzagami._stores_with_pizza[pizza]`: one store per occurrence. -/
def Pizzagami.stores_with_pizza (inp : Input) (pizza : Pizza) : List Store :=
  (inp.iter_pizzas.filter (fun sp => sp.2 = pizza)).map Prod.fst

/-- `Pizzagami._stores_with_pizza_duplicates[pizza]`: for every occurrence
`(store, pizza)` of `iter_pizzas`, one `(store, name)` entry per name in
`inp.names[(store, pizza)]`. -/
def Pizzagami.stores_with_pizza_duplicates (inp : Input) (pizza : Pizza) :
    List (Store × Name) :=
  inp.iter_pizzas.flatMap (fun sp =>
    if sp.2 = pizza then (inp.names sp.1 sp.2).map (fun n => (sp.1, n)) else [])

/-- `Pizzagami.count`. -/
def Pizzagami.count (inp : Input) (pizza : Pizza) (with_dup : Bool) : Nat :=
  if with_dup then (Pizzagami.stores_with_pizza_duplicates inp pizza).length
  else (Pizzagami.stores_with_pizza inp pizza).length

/-- `Pizzagami.is_pizzagami`: `count(pizza, with_duplicates=True) == 1`. -/
def Pizzagami.is_pizzagami (inp : Input) (pizza : Pizza) : Bool :=
  Pizzagami.count inp pizza true == 1

/-- Python `max` on a list of naturals: raises on the empty sequence. -/
def pymax (l : List Nat) : Except String Nat :=
  match l with
  | [] => Except.error "max() arg is an empty sequence"
  | x :: xs => Except.ok (xs.foldl Nat.max x)

/-- Commonness level computed in `Pizzagami.__init__` for one pizzagami
pizza: `max(common_ingr.index(i) for i in pizza)` when every ingredient is in
`common_ingr`, else `None`.  The `max` raises when the pizza is empty. -/
def ingr_common_level (common : List Ingredient) (pizza : Pizza) :
    Except String (Option Nat) :=
  if (iterIngr pizza).all (fun i => common.contains i) then
    match pymax ((iterIngr pizza).map (fun i => common.indexOf i)) with
    | Except.error e => Except.error e
    | Except.ok m => Except.ok (some m)
  else Except.ok none

/-- Per-store inner loop of `Pizzagami.__init__`: collect the pizzagami
pizzas of one store with their commonness level, propagating the exception
of `ingr_common_level`. -/
def Pizzagami.store_entries (inp : Input) (common : List Ingredient) :
    List Pizza → Except String (List (Pizza × Option Nat))
  | [] => Except.ok []
  | pizza :: rest =>
    if Pizzagami.is_pizzagami inp pizza then
      match ingr_common_level common pizza with
      | Except.error e => Except.error e
      | Except.ok lvl =>
        match Pizzagami.store_entries inp common rest with
        | Except.error e => Except.error e
        | Except.ok r => Except.ok ((pizza, lvl) :: r)
    else Pizzagami.store_entries inp common rest

/-- `Pizzagami.result` as built by `Pizzagami.__init__`, store by store;
an exception raised at any store aborts the construction. -/
def Pizzagami.result (inp : Input) (common : List Ingredient) :
    Except String (List (Store × List (Pizza × Option Nat))) :=
  inp.result.foldr (fun e acc =>
    match Pizzagami.store_entries inp common e.2, acc with
    | Except.error err, _ => Except.error err
    | Except.ok _, Except.error err => Except.error err
    | Except.ok r, Except.ok rest => Except.ok ((e.1, r) :: rest)) (Except.ok [])

/-- Result tuple type of `ConditionalProbabilityOfIngredients`:
`(prob, (ingredient, support), (other ingredient, hits))`. -/
abbrev CondTuple := ℚ × (Ingredient × Nat) × (Ingredient × Nat)

/-- `pizzas_with[ingr]` of `ConditionalProbabilityOfIngredients.__init__`:
the distinct pizzas containing `ingr`. -/
def pizzas_with (inp : Input) (ingr : Ingredient) : Finset Pizza :=
  (all_pizzas inp).filter (fun p => ingr ∈ p)

/-- Lexicographic Python comparison of `(ingredient, count)` pairs. -/
def pyPairLt (a b : Ingredient × Nat) : Bool :=
  decide (a.1 < b.1) || (decide (a.1 = b.1) && decide (a.2 < b.2))

/-- Descending Python tuple comparison used by `self.result.sort(reverse=True)`. -/
def pyTupleGe (a b : CondTuple) : Bool :=
  decide (b.1 < a.1) || (decide (a.1 = b.1) &&
    (pyPairLt b.2.1 a.2.1 || (decide (a.2.1 = b.2.1) &&
      (pyPairLt b.2.2 a.2.2 || decide (a.2.2 = b.2.2)))))

/-- Body of `ConditionalProbabilityOfIngredients.__init__` before the final
sort: for every ingredient (in sorted order, as `sorted(pizzas_with.items())`)
with enough support, one tuple per other co-occurring ingredient.  The Python
`other_ingr.remove(ingr)` never raises because `ingr` belongs to at least one
of its pizzas; it is `Finset.erase` here. -/
def cond_result_unsorted (inp : Input) (min_pizzas_to_report : Nat) : List CondTuple :=
  ((all_ingredients inp).sort (· ≤ ·)).flatMap (fun ingr =>
    if (pizzas_with inp ingr).card < min_pizzas_to_report then []
    else
      ((((pizzas_with inp ingr).biUnion (fun p => p)).erase ingr).sort (· ≤ ·)).map
        (fun ingr2 =>
          ((((pizzas_with inp ingr).filter (fun p => ingr2 ∈ p)).card : ℚ) /
              ((pizzas_with inp ingr).card : ℚ),
            (ingr, (pizzas_with inp ingr).card),
            (ingr2, ((pizzas_with inp ingr).filter (fun p => ingr2 ∈ p)).card))))

/-- `ConditionalProbabilityOfIngredients.result` after
`self.result.sort(reverse=True)`. -/
def cond_result (inp : Input) (min_pizzas_to_report : Nat) : List CondTuple :=
  (cond_result_unsorted inp min_pizzas_to_report).mergeSort pyTupleGe

/-- `FeasiblePizzas._all_below`: the empty pizza yields the empty set,
otherwise the pizza itself together with `_all_below(pizza - {i})` for each
of its ingredients `i`. -/
def all_below (pizza : Pizza) : Finset Pizza :=
  if pizza = ∅ then ∅
  else
    insert pizza (pizza.attach.biUnion (fun i => all_below (pizza.erase i.1)))
termination_by pizza.card
decreasing_by exact Finset.card_erase_lt_of_mem i.2

/-- `FeasiblePizzas.all_feasible`: union of `_all_below(pizza)` over every
`(store, pizza)` occurrence. -/
def FeasiblePizzas.all_feasible (inp : Input) : Finset Pizza :=
  inp.iter_pizzas.foldl (fun acc sp => acc ∪ all_below sp.2) ∅

/-- `FeasiblePizzas.not_seen`. -/
def FeasiblePizzas.not_seen (inp : Input) : Finset Pizza :=
  FeasiblePizzas.all_feasible inp \ all_pizzas inp

/-- Coverage percentage printed by `FeasiblePizzas.report`:
`100 * (1 - len(not_seen) / len(all_feasible))`, with real (here rational)
division in place of Python floats. -/
def FeasiblePizzas.coverage (inp : Input) : ℚ :=
  100 * (1 - ((FeasiblePizzas.not_seen inp).card : ℚ) /
    ((FeasiblePizzas.all_feasible inp).card : ℚ))

/-- Follows the spec's words: `total_occurrences` of an identity is the
number of Listings across the whole Catalog carrying it, every store and
every duplicate same-store name counted separately (in `Input.ofLines`, one
Listing per parsed menu line). -/
def spec_total_occurrences (inp : Input) (pizza : Pizza) : Nat :=
  (inp.iter_pizzas.filter (fun sp => sp.2 = pizza)).length

/-- Follows the spec's words: the plain frequency of `x` increments by
exactly 1 per distinct `(store, identity)` pair containing `x`. -/
def spec_plain_count (inp : Input) (x : Ingredient) : Nat :=
  (inp.iter_pizzas.toFinset.filter (fun sp => x ∈ sp.2)).card

/-- Follows the spec's words: the duplicate-weighted frequency of `x`
increments by `len(names_of(store, identity))` per distinct
`(store, identity)` pair containing `x`. -/
def spec_weighted_count (inp : Input) (x : Ingredient) : Nat :=
  ∑ sp ∈ inp.iter_pizzas.toFinset.filter (fun sp => x ∈ sp.2),
    (inp.names sp.1 sp.2).length

/-- Number of Listings of the catalog equal to the occurrence `sp`
(the multiplicity of `sp` in `iter_pizzas`); used to state the corrected
counting claims. -/
def listing_multiplicity (inp : Input) (sp : Store × Pizza) : Nat :=
  (inp.iter_pizzas.filter (fun x => x = sp)).length

/-- Concrete catalog: one store selling the same recipe under two names. -/
def dupStores : List (Store × List (Name × Pizza)) :=
  [("s", [("margherita", {"tomato"}), ("margarita", {"tomato"})])]

/-- Concrete catalog: one store with a single bare-name line, hence a single
listing whose identity is the empty pizza. -/
def emptyPizzaStores : List (Store × List (Name × Pizza)) :=
  [("s", [("plain", (∅ : Pizza))])]

/-- Concrete catalog of the feasibility scenario: pizza `{a,b}` observed once
and pizza `{a}` observed once. -/
def feasibleStores : List (Store × List (Name × Pizza)) :=
  [("s", [("x", ({"a", "b"} : Pizza)), ("y", ({"a"} : Pizza))])]

/-- Concrete catalog: the same ingredient sold at two different stores. -/
def twoStores : List (Store × List (Name × Pizza)) :=
  [("s1", [("margherita", ({"mozzarella"} : Pizza))]),
   ("s2", [("hawaiian", ({"mozzarella"} : Pizza))])]

/-- Concrete catalog: one store with one two-ingredient pizza. -/
def oneStorePair : List (Store × List (Name × Pizza)) :=
  [("s", [("x", ({"a", "b"} : Pizza))])]

/-- Concrete co-occurrence tuple produced on `oneStorePair`. -/
def pairTuple : CondTuple := ((1 : ℚ), ("a", 1), ("b", 1))

/- Helper lemmas. -/

lemma iter_ofLines (stores : List (Store × List (Name × Pizza))) :
    (Input.ofLines stores).iter_pizzas
      = stores.flatMap (fun e => e.2.map (fun l => (e.1, l.2))) := by
  simp [Input.iter_pizzas, Input.ofLines, List.flatMap_map, List.map_map,
    Function.comp_def]

lemma count_eq_filter_length {α : Type*} [DecidableEq α] (l : List α) (a : α) :
    l.count a = (l.filter (fun x => x = a)).length := by
  rw [List.count_eq_countP, List.countP_eq_length_filter]
  congr 1

lemma names_ofLines_length (stores : List (Store × List (Name × Pizza)))
    (s : Store) (p : Pizza) :
    ((Input.ofLines stores).names s p).length
      = listing_multiplicity (Input.ofLines stores) (s, p) := by
  rw [listing_multiplicity, iter_ofLines]
  induction stores with
  | nil => simp [Input.ofLines]
  | cons e rest ih =>
    simp only [Input.ofLines, List.flatMap_cons, List.filter_append,
      List.length_append] at ih ⊢
    rw [ih]
    congr 1
    rw [List.filter_map, List.length_map, Function.comp_def]
    by_cases h : e.1 = s
    · subst h
      rw [if_pos rfl, List.length_map]
      congr 1
      exact List.filter_congr (fun x _ => by simp [Prod.ext_iff])
    · have hf : ∀ x ∈ e.2, (decide ((e.1, x.2) = (s, p))) = false := by
        intro x _
        simp [Prod.ext_iff, h]
      rw [if_neg h, List.filter_congr hf]
      simp

lemma sum_map_ite_pizza (l : List (Store × Pizza)) (pizza : Pizza)
    (f : Store × Pizza → Nat) :
    (l.map (fun sp => if sp.2 = pizza then f sp else 0)).sum
      = ((l.filter (fun sp => sp.2 = pizza)).map f).sum := by
  induction l with
  | nil => rfl
  | cons a t ih => by_cases h : a.2 = pizza <;> simp [h, ih]

lemma sum_map_ite_mem (l : List (Store × Pizza)) (x : Ingredient)
    (f : Store × Pizza → Nat) :
    (l.map (fun sp => if x ∈ sp.2 then f sp else 0)).sum
      = ((l.filter (fun sp => x ∈ sp.2)).map f).sum := by
  induction l with
  | nil => rfl
  | cons a t ih => by_cases h : x ∈ a.2 <;> simp [h, ih]

lemma sum_map_group {α : Type*} [DecidableEq α] (l : List α) (f : α → Nat) :
    (l.map f).sum
      = ∑ a ∈ l.toFinset, (l.filter (fun x => x = a)).length * f a := by
  rw [Finset.sum_list_map_count]
  exact Finset.sum_congr rfl
    (fun x _ => by rw [count_eq_filter_length, smul_eq_mul])

lemma sum_self_count_eq_one_iff {α : Type*} [DecidableEq α] (m : List α) :
    (m.map (fun x => (m.filter (fun y => y = x)).length)).sum = 1
      ↔ m.length = 1 := by
  constructor
  · intro h
    have hlen : m.length
        ≤ (m.map (fun x => (m.filter (fun y => y = x)).length)).sum := by
      have h1 : m.length = (m.map (fun _ => 1)).sum := by simp
      rw [h1]
      apply List.sum_le_sum
      intro x hx
      have hmem : x ∈ m.filter (fun y => y = x) := by simp [List.mem_filter, hx]
      exact List.length_pos.mpr (List.ne_nil_of_mem hmem)
    rw [h] at hlen
    match m, hlen with
    | [], _ => simp at h
    | [a], _ => rfl
  · intro h
    obtain ⟨a, rfl⟩ := List.length_eq_one.mp h
    simp

lemma filter_eq_of_holds {α : Type*} [DecidableEq α] (l : List α) (p : α → Prop)
    [DecidablePred p] (a : α) (ha : p a) :
    (l.filter (fun x => p x)).filter (fun y => y = a)
      = l.filter (fun y => y = a) := by
  rw [List.filter_filter]
  exact List.filter_congr (fun x _ => by
    by_cases hx : x = a
    · subst hx; simp [ha]
    · simp [hx])

lemma count_dup_eq_sum (inp : Input) (pizza : Pizza) :
    Pizzagami.count inp pizza true
      = (inp.iter_pizzas.map
          (fun sp => if sp.2 = pizza then (inp.names sp.1 sp.2).length else 0)).sum := by
  simp [Pizzagami.count, Pizzagami.stores_with_pizza_duplicates,
    List.length_flatMap, Function.comp_def, apply_ite List.length]

lemma count_dup_ofLines (stores : List (Store × List (Name × Pizza)))
    (pizza : Pizza) :
    Pizzagami.count (Input.ofLines stores) pizza true
      = (((Input.ofLines stores).iter_pizzas.filter (fun sp => sp.2 = pizza)).map
          (fun sp => listing_multiplicity (Input.ofLines stores) sp)).sum := by
  rw [count_dup_eq_sum, sum_map_ite_pizza]
  congr 1
  exact List.map_congr_left (fun sp _ => by
    rw [names_ofLines_length])

lemma all_below_empty : all_below (∅ : Pizza) = ∅ := by
  rw [all_below]
  simp

lemma mem_all_below {S p : Pizza} : S ∈ all_below p ↔ S ⊆ p ∧ S ≠ ∅ := by
  induction p using Finset.strongInductionOn with
  | _ p ih =>
    by_cases hp : p = ∅
    · subst hp
      rw [all_below_empty]
      simp only [Finset.not_mem_empty, false_iff, not_and, Finset.subset_empty]
      exact fun h => by simp [h]
    · rw [all_below, if_neg hp]
      simp only [Finset.mem_insert, Finset.mem_biUnion, Finset.mem_attach,
        true_and, Subtype.exists]
      constructor
      · rintro (rfl | ⟨i, hi, hS⟩)
        · exact ⟨Finset.Subset.refl _, hp⟩
        · have h := (ih _ (Finset.erase_ssubset hi)).1 hS
          exact ⟨h.1.trans (Finset.erase_subset _ _), h.2⟩
      · rintro ⟨hsub, hne⟩
        by_cases hSp : S = p
        · exact Or.inl hSp
        · obtain ⟨x, hxp, hxS⟩ :=
            (Finset.ssubset_iff_of_subset hsub).1
              (Finset.ssubset_iff_subset_ne.mpr ⟨hsub, hSp⟩)
          refine Or.inr ⟨x, hxp, (ih _ (Finset.erase_ssubset hxp)).2 ⟨?_, hne⟩⟩
          exact Finset.subset_erase.2 ⟨hsub, hxS⟩

lemma all_below_eq_powerset (p : Pizza) :
    all_below p = p.powerset.filter (fun S => S ≠ ∅) := by
  ext S
  simp [mem_all_below, Finset.mem_filter, Finset.mem_powerset]

lemma mem_feasible_foldl (l : List (Store × Pizza)) (acc : Finset Pizza) (x : Pizza) :
    x ∈ l.foldl (fun a sp => a ∪ all_below sp.2) acc
      ↔ x ∈ acc ∨ ∃ sp ∈ l, x ∈ all_below sp.2 := by
  induction l generalizing acc with
  | nil => simp
  | cons a t ih =>
    rw [List.foldl_cons, ih]
    simp [Finset.mem_union, or_assoc]

lemma mem_all_feasible (inp : Input) (x : Pizza) :
    x ∈ FeasiblePizzas.all_feasible inp
      ↔ ∃ sp ∈ inp.iter_pizzas, x ∈ all_below sp.2 := by
  rw [FeasiblePizzas.all_feasible, mem_feasible_foldl]
  simp

lemma mem_all_pizzas (inp : Input) (p : Pizza) :
    p ∈ all_pizzas inp ↔ ∃ sp ∈ inp.iter_pizzas, sp.2 = p := by
  simp [all_pizzas]

lemma exclStep_other (st : ExclState) (e : Store × Ingredient) (x : Ingredient)
    (hx : x ≠ e.2) :
    (exclStep st e).seen_once x = st.seen_once x
      ∧ (exclStep st e).seen_more x = st.seen_more x := by
  rw [exclStep]
  split
  · exact ⟨rfl, rfl⟩
  · split
    · split
      · exact ⟨by simp [hx], by simp [hx]⟩
      · exact ⟨by simp [hx], rfl⟩
    · exact ⟨by simp [hx], rfl⟩

lemma excl_invariant (l : List (Store × Ingredient)) (x : Ingredient) :
    (∀ s, (l.foldl exclStep exclInit).seen_once x = some s
        → (s, x) ∈ l ∧ ∀ s', (s', x) ∈ l → s' = s)
    ∧ ((l.foldl exclStep exclInit).seen_more x = true
        → (l.foldl exclStep exclInit).seen_once x = none)
    ∧ ((l.foldl exclStep exclInit).seen_once x = none
          ∧ (l.foldl exclStep exclInit).seen_more x = false
        → ∀ s, (s, x) ∉ l) := by
  induction l using List.reverseRecOn with
  | nil => simp [exclInit]
  | append_singleton t e ih =>
    obtain ⟨ih1, ih2, ih3⟩ := ih
    rw [List.foldl_append, List.foldl_cons, List.foldl_nil]
    by_cases hx : x = e.2
    · subst hx
      set st := t.foldl exclStep exclInit with hst
      by_cases hm : st.seen_more e.2
      · have hnone : st.seen_once e.2 = none := ih2 hm
        have hstep : exclStep st e = st := by
          rw [exclStep, if_pos hm]
        rw [hstep]
        refine ⟨fun s hs => ?_, fun _ => hnone, fun h => absurd h.2 (by simp [hm])⟩
        rw [hnone] at hs
        exact Option.noConfusion hs
      · have hmf : st.seen_more e.2 = false := by
          rcases hb : st.seen_more e.2 with - | -
          · rfl
          · exact absurd hb hm
        rcases ho : st.seen_once e.2 with - | s0
        · have hstep1 : (exclStep st e).seen_once e.2 = some e.1 := by
            rw [exclStep, if_neg (by simp [hmf]), ho]
            simp
          have hstep2 : (exclStep st e).seen_more e.2 = false := by
            rw [exclStep, if_neg (by simp [hmf]), ho]
            simpa using hmf
          refine ⟨fun s hs => ?_, fun hmm => absurd hstep2 (by simp [hmm]), ?_⟩
          · rw [hstep1] at hs
            have hse : s = e.1 := (Option.some_injective _ hs).symm
            subst hse
            refine ⟨by simp, fun s' hs' => ?_⟩
            rcases List.mem_append.1 hs' with h | h
            · exact absurd h (ih3 ⟨ho, hmf⟩ s')
            · simp only [List.mem_singleton] at h
              exact congrArg Prod.fst h
          · rintro ⟨hcontra, -⟩
            rw [hstep1] at hcontra
            exact Option.noConfusion hcontra
        · by_cases hne : s0 ≠ e.1
          · have hstep1 : (exclStep st e).seen_once e.2 = none := by
              rw [exclStep, if_neg (by simp [hmf]), ho]
              simp [hne]
            have hstep2 : (exclStep st e).seen_more e.2 = true := by
              rw [exclStep, if_neg (by simp [hmf]), ho]
              simp [hne]
            refine ⟨fun s hs => ?_, fun _ => hstep1, ?_⟩
            · rw [hstep1] at hs
              exact Option.noConfusion hs
            · rintro ⟨-, hcontra⟩
              rw [hstep2] at hcontra
              exact Bool.noConfusion hcontra
          · have hs0 : s0 = e.1 := by simpa using hne
            have hstep1 : (exclStep st e).seen_once e.2 = some e.1 := by
              rw [exclStep, if_neg (by simp [hmf]), ho]
              simp [hne]
            have hstep2 : (exclStep st e).seen_more e.2 = false := by
              rw [exclStep, if_neg (by simp [hmf]), ho]
              simpa [hne] using hmf
            refine ⟨fun s hs => ?_, fun hmm => absurd hstep2 (by simp [hmm]), ?_⟩
            · rw [hstep1] at hs
              have hse : s = e.1 := (Option.some_injective _ hs).symm
              subst hse
              have hin : (e.1, e.2) ∈ t := hs0 ▸ (ih1 s0 ho).1
              refine ⟨List.mem_append.2 (Or.inl hin), fun s' hs' => ?_⟩
              rcases List.mem_append.1 hs' with h | h
              · exact hs0 ▸ (ih1 s0 ho).2 s' h
              · simp only [List.mem_singleton] at h
                exact congrArg Prod.fst h
            · rintro ⟨hcontra, -⟩
              rw [hstep1] at hcontra
              exact Option.noConfusion hcontra
    · have hxne : x ≠ e.2 := hx
      obtain ⟨h1, h2⟩ := exclStep_other (t.foldl exclStep exclInit) e x hxne
      rw [h1, h2]
      have hmem : ∀ s : Store, (s, x) ∈ t ++ [e] ↔ (s, x) ∈ t := by
        intro s
        rw [List.mem_append]
        simp only [List.mem_singleton]
        constructor
        · rintro (h | h)
          · exact h
          · exact absurd (congrArg Prod.snd h) hxne
        · exact Or.inl
      refine ⟨fun s hs => ?_, ih2, fun hh s => ?_⟩
      · obtain ⟨ha, hb⟩ := ih1 s hs
        exact ⟨(hmem s).2 ha, fun s' hs' => hb s' ((hmem s').1 hs')⟩
      · rw [hmem s]
        exact ih3 hh s

lemma count_dup_self_sum (stores : List (Store × List (Name × Pizza)))
    (pizza : Pizza) :
    Pizzagami.count (Input.ofLines stores) pizza true
      = (((Input.ofLines stores).iter_pizzas.filter (fun sp => sp.2 = pizza)).map
          (fun sp => (((Input.ofLines stores).iter_pizzas.filter
            (fun sp => sp.2 = pizza)).filter (fun y => y = sp)).length)).sum := by
  rw [count_dup_ofLines]
  apply congrArg
  apply List.map_congr_left
  intro sp hsp
  have h2 : sp.2 = pizza := by
    rw [List.mem_filter] at hsp
    exact of_decide_eq_true hsp.2
  rw [listing_multiplicity, ← filter_eq_of_holds
    ((Input.ofLines stores).iter_pizzas) (fun x => x.2 = pizza) sp h2]

/-- C1: a pizza identity is classified pizzagami exactly when the whole
catalog holds a single Listing carrying it (every store and every duplicate
same-store name counted separately); in particular an identity with two or
more Listings (for instance twice at one store under different names) is
never pizzagami. -/
theorem is_pizzagami_iff_unique_listing
    (stores : List (Store × List (Name × Pizza)))
    (hnd : (stores.map Prod.fst).Nodup) (pizza : Pizza) :
    (Pizzagami.is_pizzagami (Input.ofLines stores) pizza = true
        ↔ spec_total_occurrences (Input.ofLines stores) pizza = 1)
      ∧ (2 ≤ spec_total_occurrences (Input.ofLines stores) pizza
        → Pizzagami.is_pizzagami (Input.ofLines stores) pizza = false) := by
  have key : Pizzagami.is_pizzagami (Input.ofLines stores) pizza = true
      ↔ spec_total_occurrences (Input.ofLines stores) pizza = 1 := by
    rw [Pizzagami.is_pizzagami, beq_iff_eq, count_dup_self_sum,
      spec_total_occurrences]
    exact sum_self_count_eq_one_iff _
  refine ⟨key, fun h2 => ?_⟩
  rcases hb : Pizzagami.is_pizzagami (Input.ofLines stores) pizza with - | -
  · rfl
  · have := key.mp hb
    omega

/-- Witness for C1 at a concrete catalog: the same recipe listed twice at one
store under two names has two Listings and is not pizzagami. -/
theorem is_pizzagami_iff_unique_listing_witness :
    (2 ≤ spec_total_occurrences (Input.ofLines dupStores) ({"tomato"} : Pizza))
      ∧ Pizzagami.is_pizzagami (Input.ofLines dupStores) ({"tomato"} : Pizza)
          = false :=
  ⟨by decide,
    (is_pizzagami_iff_unique_listing dupStores (by decide) {"tomato"}).2
      (by decide)⟩

/-- C3 counterexample: with the same recipe listed twice at one store under
two names, `count(pizza, with_duplicates=True)` returns 4, not the number of
Listings carrying the identity, which is 2. -/
theorem count_with_duplicates_ne_listing_count :
    Pizzagami.count (Input.ofLines dupStores) ({"tomato"} : Pizza) true
      ≠ spec_total_occurrences (Input.ofLines dupStores) ({"tomato"} : Pizza) := by
  decide

/-- C3 amended: `count` with duplicate weighting returns, per distinct
`(store, identity)` pair carrying the identity, the square of that pair's
listing multiplicity — not the plain number of Listings. -/
theorem count_with_duplicates_eq_sum_sq
    (stores : List (Store × List (Name × Pizza)))
    (hnd : (stores.map Prod.fst).Nodup) (pizza : Pizza) :
    Pizzagami.count (Input.ofLines stores) pizza true
      = ∑ sp ∈ (Input.ofLines stores).iter_pizzas.toFinset.filter
          (fun sp => sp.2 = pizza),
          (listing_multiplicity (Input.ofLines stores) sp) ^ 2 := by
  rw [count_dup_ofLines, sum_map_group]
  have hset : ((Input.ofLines stores).iter_pizzas.filter
        (fun sp => sp.2 = pizza)).toFinset
      = (Input.ofLines stores).iter_pizzas.toFinset.filter
          (fun sp => sp.2 = pizza) := by
    rw [List.toFinset_filter]
    exact Finset.filter_congr (fun sp _ => by simp)
  rw [hset]
  apply Finset.sum_congr rfl
  intro sp hsp
  have h2 : sp.2 = pizza := (Finset.mem_filter.1 hsp).2
  rw [filter_eq_of_holds ((Input.ofLines stores).iter_pizzas)
    (fun x => x.2 = pizza) sp h2, pow_two, listing_multiplicity]

/-- Witness for the amended C3 theorem at a concrete catalog. -/
theorem count_with_duplicates_eq_sum_sq_witness :
    Pizzagami.count (Input.ofLines dupStores) ({"tomato"} : Pizza) true
      = ∑ sp ∈ (Input.ofLines dupStores).iter_pizzas.toFinset.filter
          (fun sp => sp.2 = ({"tomato"} : Pizza)),
          (listing_multiplicity (Input.ofLines dupStores) sp) ^ 2 :=
  count_with_duplicates_eq_sum_sq dupStores (by decide) {"tomato"}

/-- C2 counterexample: with the same recipe listed twice at one store under
two names, the plain counter of `tomato` is 2 (not 1 per distinct pair) and
the duplicate-weighted counter is 4 (not `len(names)` = 2 per distinct
pair). -/
theorem ingredient_counts_not_per_pair :
    ¬ (IngredientCount.counter (Input.ofLines dupStores) "tomato"
          = spec_plain_count (Input.ofLines dupStores) "tomato"
      ∧ IngredientCount.counter_with_duplicates (Input.ofLines dupStores) "tomato"
          = spec_weighted_count (Input.ofLines dupStores) "tomato") := by
  decide

/-- C2 amended: per distinct `(store, identity)` pair containing the
ingredient, the plain counter increments by the pair's listing multiplicity
(1 per Listing occurrence), and the duplicate-weighted counter by
multiplicity times `len(names_of(store, identity))`. -/
theorem ingredient_counts_per_listing
    (stores : List (Store × List (Name × Pizza)))
    (hnd : (stores.map Prod.fst).Nodup) (x : Ingredient) :
    (IngredientCount.counter (Input.ofLines stores) x
      = ∑ sp ∈ (Input.ofLines stores).iter_pizzas.toFinset.filter
          (fun sp => x ∈ sp.2), listing_multiplicity (Input.ofLines stores) sp)
    ∧ IngredientCount.counter_with_duplicates (Input.ofLines stores) x
      = ∑ sp ∈ (Input.ofLines stores).iter_pizzas.toFinset.filter
          (fun sp => x ∈ sp.2),
          listing_multiplicity (Input.ofLines stores) sp
            * ((Input.ofLines stores).names sp.1 sp.2).length := by
  constructor
  · rw [IngredientCount.counter, sum_map_group, Finset.sum_filter]
    apply Finset.sum_congr rfl
    intro sp _
    by_cases h : x ∈ sp.2
    · simp [h, listing_multiplicity]
    · simp [h]
  · rw [IngredientCount.counter_with_duplicates, sum_map_group, Finset.sum_filter]
    apply Finset.sum_congr rfl
    intro sp _
    by_cases h : x ∈ sp.2
    · simp [h, listing_multiplicity]
    · simp [h]

/-- Witness for the amended C2 theorem at a concrete catalog. -/
theorem ingredient_counts_per_listing_witness :
    IngredientCount.counter (Input.ofLines dupStores) "tomato"
      = ∑ sp ∈ (Input.ofLines dupStores).iter_pizzas.toFinset.filter
          (fun sp => "tomato" ∈ sp.2),
          listing_multiplicity (Input.ofLines dupStores) sp :=
  (ingredient_counts_per_listing dupStores (by decide) "tomato").1

/-- C10: the closure function returns exactly the set of non-empty subsets of
its argument, and the total feasible set is exactly the union, over observed
identities, of their non-empty subsets. -/
theorem all_below_is_nonempty_powerset :
    (∀ p : Pizza, all_below p = p.powerset.filter (fun S => S ≠ ∅))
      ∧ ∀ inp : Input, FeasiblePizzas.all_feasible inp
          = (all_pizzas inp).biUnion
              (fun p => p.powerset.filter (fun S => S ≠ ∅)) := by
  refine ⟨all_below_eq_powerset, fun inp => ?_⟩
  ext x
  rw [mem_all_feasible, Finset.mem_biUnion]
  constructor
  · rintro ⟨sp, hsp, hx⟩
    refine ⟨sp.2, (mem_all_pizzas inp sp.2).2 ⟨sp, hsp, rfl⟩, ?_⟩
    rwa [all_below_eq_powerset] at hx
  · rintro ⟨p, hp, hx⟩
    obtain ⟨sp, hsp, rfl⟩ := (mem_all_pizzas inp p).1 hp
    exact ⟨sp, hsp, by rwa [all_below_eq_powerset]⟩

/-- C6 counterexample: the empty pizza is not a member of its own closure,
since `_all_below(frozenset())` is the empty set, so reflexivity does not
hold for every pizza identity. -/
theorem empty_not_in_own_closure :
    ¬ ((∅ : Pizza) ∈ all_below (∅ : Pizza)) := by
  simp [mem_all_below]

/-- C6 amended: every non-empty pizza is a member of its own closure, and for
every ingredient `i` of `p` the closure of `p` minus `i` is contained in the
closure of `p`; reflexivity fails exactly at the empty pizza. -/
theorem closure_refl_and_mono (p : Pizza) :
    (p ≠ ∅ → p ∈ all_below p)
      ∧ ∀ i ∈ p, all_below (p.erase i) ⊆ all_below p := by
  constructor
  · intro hne
    exact mem_all_below.2 ⟨Finset.Subset.refl _, hne⟩
  · intro i _ S hS
    have h := mem_all_below.1 hS
    exact mem_all_below.2 ⟨h.1.trans (Finset.erase_subset _ _), h.2⟩

/-- Witness for the amended C6 theorem at the singleton pizza `{a}`. -/
theorem closure_refl_and_mono_witness :
    (({"a"} : Pizza) ∈ all_below ({"a"} : Pizza))
      ∧ all_below (({"a"} : Pizza).erase "a") ⊆ all_below ({"a"} : Pizza) :=
  ⟨(closure_refl_and_mono {"a"}).1 (by decide),
    (closure_refl_and_mono {"a"}).2 "a" (by decide)⟩

/-- C7: on the catalog where `{a,b}` and `{a}` are each observed once, the
feasible set is `{{a,b},{a},{b}}` of size 3, the not-seen set is `{{b}}` of
size 1, and the reported coverage is `100 * (1 - 1/3) = 200/3` percent. -/
theorem feasible_scenario :
    FeasiblePizzas.all_feasible (Input.ofLines feasibleStores)
        = {({"a", "b"} : Pizza), {"a"}, {"b"}}
      ∧ (FeasiblePizzas.all_feasible (Input.ofLines feasibleStores)).card = 3
      ∧ FeasiblePizzas.not_seen (Input.ofLines feasibleStores)
          = {({"b"} : Pizza)}
      ∧ (FeasiblePizzas.not_seen (Input.ofLines feasibleStores)).card = 1
      ∧ FeasiblePizzas.coverage (Input.ofLines feasibleStores) = 200 / 3 := by
  have h : FeasiblePizzas.all_feasible (Input.ofLines feasibleStores)
      = {({"a", "b"} : Pizza), {"a"}, {"b"}} := by
    simp only [FeasiblePizzas.all_feasible, all_below_eq_powerset]
    decide
  have hns : FeasiblePizzas.not_seen (Input.ofLines feasibleStores)
      = {({"b"} : Pizza)} := by
    rw [FeasiblePizzas.not_seen, h]
    decide
  have c1 : ({({"a", "b"} : Pizza), {"a"}, {"b"}} : Finset Pizza).card = 3 := by
    decide
  have c2 : ({({"b"} : Pizza)} : Finset Pizza).card = 1 := by decide
  refine ⟨h, by rw [h]; exact c1, hns, by rw [hns]; exact c2, ?_⟩
  rw [FeasiblePizzas.coverage, hns, h, c1, c2]
  norm_num

/-- C8 counterexample: a catalog with one bare-name listing (whose identity
is the empty set) is non-empty, yet its total feasible set is empty. -/
theorem feasible_empty_on_nonempty_catalog :
    FeasiblePizzas.all_feasible (Input.ofLines emptyPizzaStores) = ∅
      ∧ (Input.ofLines emptyPizzaStores).iter_pizzas ≠ [] := by
  constructor
  · simp only [FeasiblePizzas.all_feasible, all_below_eq_powerset]
    decide
  · decide

/-- C8 amended: the total feasible set is empty exactly when every listing of
the catalog has the empty identity; equivalently the coverage divisor
`|feasible|` is positive exactly when some listing has a non-empty
identity. -/
theorem feasible_empty_iff (inp : Input) :
    (FeasiblePizzas.all_feasible inp = ∅
        ↔ ∀ sp ∈ inp.iter_pizzas, sp.2 = (∅ : Pizza))
      ∧ (0 < (FeasiblePizzas.all_feasible inp).card
        ↔ ∃ sp ∈ inp.iter_pizzas, sp.2 ≠ (∅ : Pizza)) := by
  have key : FeasiblePizzas.all_feasible inp = ∅
      ↔ ∀ sp ∈ inp.iter_pizzas, sp.2 = (∅ : Pizza) := by
    constructor
    · intro h sp hsp
      by_contra hne
      have hmem : sp.2 ∈ FeasiblePizzas.all_feasible inp :=
        (mem_all_feasible inp sp.2).2
          ⟨sp, hsp, mem_all_below.2 ⟨Finset.Subset.refl _, hne⟩⟩
      rw [h] at hmem
      exact Finset.not_mem_empty _ hmem
    · intro h
      ext x
      simp only [Finset.not_mem_empty, iff_false]
      intro hx
      obtain ⟨sp, hsp, hmem⟩ := (mem_all_feasible inp x).1 hx
      rw [h sp hsp, all_below_empty] at hmem
      exact Finset.not_mem_empty _ hmem
  refine ⟨key, ?_⟩
  rw [Finset.card_pos, Finset.nonempty_iff_ne_empty, ne_eq, key]
  constructor
  · intro h
    push_neg at h
    exact h
  · intro h
    push_neg
    exact h

/-- C4 (code-bug evidence): on a catalog whose single listing carries the
empty identity, that identity is classified pizzagami and its feasibility
closure is the empty set, but `Pizzagami.__init__` raises
`ValueError: max() arg is an empty sequence` for every common-ingredient
list instead of completing. -/
theorem empty_pizzagami_raises :
    Pizzagami.is_pizzagami (Input.ofLines emptyPizzaStores) (∅ : Pizza) = true
      ∧ all_below (∅ : Pizza) = ∅
      ∧ ∀ common : List Ingredient,
          Pizzagami.result (Input.ofLines emptyPizzaStores) common
            = Except.error "max() arg is an empty sequence" := by
  have hpg : Pizzagami.is_pizzagami (Input.ofLines emptyPizzaStores)
      (∅ : Pizza) = true := by decide
  refine ⟨hpg, all_below_empty, fun common => ?_⟩
  have hiter : iterIngr (∅ : Pizza) = [] := by
    rw [iterIngr]
    exact Finset.sort_empty _
  have hlvl : ingr_common_level common (∅ : Pizza)
      = Except.error "max() arg is an empty sequence" := by
    rw [ingr_common_level, hiter]
    simp [pymax]
  have hres : (Input.ofLines emptyPizzaStores).result
      = [("s", [(∅ : Pizza)])] := by decide
  rw [Pizzagami.result, hres]
  simp only [List.foldr_cons, List.foldr_nil]
  simp [Pizzagami.store_entries, hpg, hlvl]

/-- C5: no ingredient ever appears in the exclusive sets of two different
stores, and an ingredient that occurs (in any listing) at two distinct
stores is permanently non-exclusive: it appears in no store's exclusive set,
however many further stores or repeats follow. -/
theorem exclusive_stores_unique (inp : Input) :
    (∀ s1 s2 x, s1 ≠ s2
      → ¬ (IngredientsAtOneStore.result inp s1 x = true
            ∧ IngredientsAtOneStore.result inp s2 x = true))
    ∧ ∀ s1 s2 x, s1 ≠ s2 → (s1, x) ∈ ingrStream inp → (s2, x) ∈ ingrStream inp
      → ∀ s, IngredientsAtOneStore.result inp s x = false := by
  constructor
  · rintro s1 s2 x hne ⟨h1, h2⟩
    rw [IngredientsAtOneStore.result, beq_iff_eq] at h1 h2
    rw [h1] at h2
    exact hne (Option.some_injective _ h2)
  · intro s1 s2 x hne h1 h2 s
    rw [IngredientsAtOneStore.result]
    rcases hso : (IngredientsAtOneStore.final inp).seen_once x with - | s0
    · rfl
    · have hso' : ((ingrStream inp).foldl exclStep exclInit).seen_once x
          = some s0 := hso
      have hinv := (excl_invariant (ingrStream inp) x).1 s0 hso'
      exact absurd ((hinv.2 s1 h1).trans (hinv.2 s2 h2).symm) hne

/-- Witness for C5: mozzarella occurs at both stores of `twoStores`, so it is
exclusive to neither. -/
theorem exclusive_stores_unique_witness :
    IngredientsAtOneStore.result (Input.ofLines twoStores) "s1" "mozzarella"
      = false :=
  (exclusive_stores_unique (Input.ofLines twoStores)).2 "s1" "s2" "mozzarella"
    (by decide)
    (by rw [ingrStream, List.mem_flatMap]
        refine ⟨("s1", {"mozzarella"}), by rw [iter_ofLines]; decide, ?_⟩
        show ("s1", "mozzarella")
          ∈ (iterIngr ({"mozzarella"} : Pizza)).map (fun i => ("s1", i))
        rw [iterIngr, Finset.sort_singleton]
        decide)
    (by rw [ingrStream, List.mem_flatMap]
        refine ⟨("s2", {"mozzarella"}), by rw [iter_ofLines]; decide, ?_⟩
        show ("s2", "mozzarella")
          ∈ (iterIngr ({"mozzarella"} : Pizza)).map (fun i => ("s2", i))
        rw [iterIngr, Finset.sort_singleton]
        decide)
    "s1"

/-- C9: every probability in the co-occurrence estimator's result list lies
in the interval [0,1], and no tuple pairs an ingredient with itself. -/
theorem cond_prob_in_unit_and_irrefl (inp : Input) (minp : Nat) (t : CondTuple)
    (ht : t ∈ cond_result inp minp) :
    0 ≤ t.1 ∧ t.1 ≤ 1 ∧ t.2.1.1 ≠ t.2.2.1 := by
  rw [cond_result, List.mem_mergeSort, cond_result_unsorted,
    List.mem_flatMap] at ht
  obtain ⟨ingr, hingr, ht⟩ := ht
  by_cases hcard : (pizzas_with inp ingr).card < minp
  · rw [if_pos hcard] at ht
    simp at ht
  · rw [if_neg hcard, List.mem_map] at ht
    obtain ⟨ingr2, hingr2, rfl⟩ := ht
    rw [Finset.mem_sort] at hingr2
    have hne : ingr2 ≠ ingr := (Finset.mem_erase.1 hingr2).1
    refine ⟨?_, ?_, ?_⟩
    · exact div_nonneg (Nat.cast_nonneg _) (Nat.cast_nonneg _)
    · exact div_le_one_of_le₀
        (by exact_mod_cast Finset.card_le_card (Finset.filter_subset _ _))
        (Nat.cast_nonneg _)
    · exact fun h => hne h.symm

/-- Witness for C9: on the one-store catalog with the single pizza `{a,b}`,
the tuple `(1, (a,1), (b,1))` is produced and satisfies the bounds. -/
theorem cond_prob_in_unit_and_irrefl_witness :
    (pairTuple ∈ cond_result (Input.ofLines oneStorePair) 1)
      ∧ (0 ≤ pairTuple.1 ∧ pairTuple.1 ≤ 1
        ∧ pairTuple.2.1.1 ≠ pairTuple.2.2.1) := by
  have hmem : pairTuple ∈ cond_result (Input.ofLines oneStorePair) 1 := by
    rw [cond_result, List.mem_mergeSort, cond_result_unsorted,
      List.mem_flatMap]
    refine ⟨"a", ?_, ?_⟩
    · rw [Finset.mem_sort]
      decide
    · rw [if_neg (by decide), List.mem_map]
      refine ⟨"b", ?_, ?_⟩
      · rw [Finset.mem_sort]
        decide
      · have hc : (pizzas_with (Input.ofLines oneStorePair) "a").card = 1 := by
          decide
        have hn : ((pizzas_with (Input.ofLines oneStorePair) "a").filter
            (fun p => "b" ∈ p)).card = 1 := by decide
        rw [hc, hn, pairTuple]
        norm_num
  exact ⟨hmem,
    cond_prob_in_unit_and_irrefl (Input.ofLines oneStorePair) 1 pairTuple hmem⟩
